import Mathlib

/-!
Shallow embedding of components/esp32/aes.c (ESP32 AES layer: engine
lifecycle, per-direction key records with lazy install, and the block
cipher modes ECB, CBC, CFB-128, CFB-8, CTR built over an abstract hardware
block transform).

Bytes are modelled as Nat with the C cast to unsigned char written
explicitly as reduction mod 256.  Buffers are lists of bytes.  The
hardware primitives (ets_aes_crypt, ets_aes_setkey_enc/dec,
ets_aes_enable/disable) are external to the repository and are modelled
as abstract function parameters or as logged events.
-/

/-- Modelled from the spec: the mode constant AES_ENCRYPT declared in the
aes.h header, which is not under src/.  Only distinctness from
AES_DECRYPT matters to the code. -/
def AES_ENCRYPT : Int := 1

/-- Modelled from the spec: the mode constant AES_DECRYPT declared in the
aes.h header, which is not under src/. -/
def AES_DECRYPT : Int := 0

/-- Modelled from the spec: the distinct nonzero error code for an
invalid key length, declared in the aes.h header (not under src/). -/
def ERR_AES_INVALID_KEY_LENGTH : Int := -32

/-- Modelled from the spec: the distinct nonzero error code for an
invalid input length, declared in the aes.h header (not under src/). -/
def ERR_AES_INVALID_INPUT_LENGTH : Int := -34

/-- The C cast to unsigned char. -/
def uchar (x : Nat) : Nat := x % 256

/-- One direction of key state in AES_CTX: the keyflag, the recorded key
bits, and the 32-byte raw key buffer. -/
structure KeyRecord where
  keyflag : Bool
  keybits : Nat
  key : List Nat
  deriving DecidableEq

/-- The AES_CTX structure: an encrypt-side and a decrypt-side key record. -/
structure AES_CTX where
  enc : KeyRecord
  dec : KeyRecord
  deriving DecidableEq

/-- The all-zero context produced by memset in esp_aes_init (and bzero in
esp_aes_free): flags cleared, bits zero, 32 zero key bytes per side. -/
def ctxZero : AES_CTX :=
  ⟨⟨false, 0, List.replicate 32 0⟩, ⟨false, 0, List.replicate 32 0⟩⟩

/-- Calls into the hardware layer that the embedding logs as events:
direct key programming via ets_aes_setkey_enc / ets_aes_setkey_dec, and
a block transform via ets_aes_crypt. -/
inductive HwEvent where
  | setkeyEnc (key : List Nat) (bits : Nat)
  | setkeyDec (key : List Nat) (bits : Nat)
  | crypt (input : List Nat)
  deriving DecidableEq

/-- esp_aes_setkey_enc: validates keybits against 128/192/256 (else
returns ERR_AES_INVALID_KEY_LENGTH); if the encrypt keyflag is clear it
records keybits and the key bytes (memset to zero then memcpy of
keybits/8 bytes into the 32-byte buffer) and sets the flag; otherwise it
programs the key directly onto the engine (ets_aes_setkey_enc) and
leaves the record untouched.  Returns (return code, updated context,
hardware events). -/
def esp_aes_setkey_enc (ctx : AES_CTX) (key : List Nat) (keybits : Nat) :
    Int × AES_CTX × List HwEvent :=
  if keybits = 128 ∨ keybits = 192 ∨ keybits = 256 then
    let keybyte := keybits / 8
    if ctx.enc.keyflag = false then
      (0, ⟨⟨true, keybits, key.take keybyte ++ List.replicate (32 - keybyte) 0⟩, ctx.dec⟩, [])
    else
      (0, ctx, [HwEvent.setkeyEnc key keybits])
  else
    (ERR_AES_INVALID_KEY_LENGTH, ctx, [])

/-- esp_aes_setkey_dec: same as esp_aes_setkey_enc for the decrypt-side
record, programming via ets_aes_setkey_dec in the installed case. -/
def esp_aes_setkey_dec (ctx : AES_CTX) (key : List Nat) (keybits : Nat) :
    Int × AES_CTX × List HwEvent :=
  if keybits = 128 ∨ keybits = 192 ∨ keybits = 256 then
    let keybyte := keybits / 8
    if ctx.dec.keyflag = false then
      (0, ⟨ctx.enc, ⟨true, keybits, key.take keybyte ++ List.replicate (32 - keybyte) 0⟩⟩, [])
    else
      (0, ctx, [HwEvent.setkeyDec key keybits])
  else
    (ERR_AES_INVALID_KEY_LENGTH, ctx, [])

/-- esp_aes_process_enable: reinstalls the key recorded in the context
for the requested mode by calling the setkey function on the stored
bytes and bits.  The return code of the setkey call is discarded, as in
the C source. -/
def esp_aes_process_enable (ctx : AES_CTX) (mode : Int) : AES_CTX × List HwEvent :=
  if mode = AES_ENCRYPT then
    let r := esp_aes_setkey_enc ctx ctx.enc.key ctx.enc.keybits
    (r.2.1, r.2.2)
  else
    let r := esp_aes_setkey_dec ctx ctx.dec.key ctx.dec.keybits
    (r.2.1, r.2.2)

/-- esp_aes_encrypt: single-block entry point; calls ets_aes_crypt on the
input with no direction argument.  The hardware transform is the
abstract parameter ets. -/
def esp_aes_encrypt (ets : List Nat → List Nat) (_ctx : AES_CTX) (input : List Nat) : List Nat :=
  ets input

/-- esp_aes_decrypt: single-block entry point; also calls ets_aes_crypt on
the input with no direction argument. -/
def esp_aes_decrypt (ets : List Nat → List Nat) (_ctx : AES_CTX) (input : List Nat) : List Nat :=
  ets input

/-- esp_aes_crypt_ecb: installs the key for the requested mode via
esp_aes_process_enable, performs the single block transform
(esp_aes_encrypt or esp_aes_decrypt, both ets_aes_crypt), and returns 0
unconditionally.  Returns (return code, updated context, output block,
hardware events). -/
def esp_aes_crypt_ecb (ets : List Nat → List Nat) (mode : Int) (ctx : AES_CTX)
    (input : List Nat) : Int × AES_CTX × List Nat × List HwEvent :=
  let pe := esp_aes_process_enable ctx mode
  let output :=
    if mode = AES_ENCRYPT then esp_aes_encrypt ets pe.1 input
    else esp_aes_decrypt ets pe.1 input
  (0, pe.1, output, pe.2 ++ [HwEvent.crypt input])

/-- Physical engine power events (ets_aes_enable / ets_aes_disable). -/
inductive EngineEvent where
  | enable
  | disable
  deriving DecidableEq

/-- Modelled from the spec: the process-wide engine handle behind the
AES_LOCK/AES_TAKE/AES_GIVE/AES_IS_USED macros, which are not under
src/.  Per the spec, refcount counts live contexts and AES_IS_USED
holds iff refcount is nonzero; enabled tracks the physical power state
set by ets_aes_enable/ets_aes_disable. -/
structure EngineState where
  refcount : Nat
  enabled : Bool
  deriving DecidableEq

/-- esp_aes_init: zeroes the context, then under the lock takes a
reference (AES_TAKE: refcount increment, modelled from the spec) and
unconditionally calls ets_aes_enable.  Returns (context, engine state,
engine events). -/
def esp_aes_init (s : EngineState) : AES_CTX × EngineState × List EngineEvent :=
  (ctxZero, ⟨s.refcount + 1, true⟩, [EngineEvent.enable])

/-- esp_aes_free: returns immediately on a NULL context; otherwise
zeroes the context (bzero), then under the lock gives back the
reference (AES_GIVE: refcount decrement, modelled from the spec) and
calls ets_aes_disable exactly when AES_IS_USED is false afterwards. -/
def esp_aes_free (ctx : Option AES_CTX) (s : EngineState) :
    Option AES_CTX × EngineState × List EngineEvent :=
  match ctx with
  | none => (none, s, [])
  | some _ =>
    let r := s.refcount - 1
    if r = 0 then (some ctxZero, ⟨r, false⟩, [EngineEvent.disable])
    else (some ctxZero, ⟨r, s.enabled⟩, [])

/-- A lifecycle operation on some live context: esp_aes_init of a fresh
context or esp_aes_free of a live (non-NULL) context. -/
inductive CtxOp where
  | init
  | free
  deriving DecidableEq

/-- One lifecycle step acting on the shared engine state, projecting the
engine effects of esp_aes_init and esp_aes_free. -/
def stepOp (s : EngineState) : CtxOp → EngineState × List EngineEvent
  | CtxOp.init => ((esp_aes_init s).2.1, (esp_aes_init s).2.2)
  | CtxOp.free => ((esp_aes_free (some ctxZero) s).2.1, (esp_aes_free (some ctxZero) s).2.2)

/-- Run a sequence of lifecycle operations, accumulating engine events. -/
def runOps (s : EngineState) : List CtxOp → EngineState × List EngineEvent
  | [] => (s, [])
  | op :: t =>
    let st := stepOp s op
    let rest := runOps st.1 t
    (rest.1, st.2 ++ rest.2)

/-- Number of 0-to-1 refcount transitions performed by the operation
sequence when started at refcount r. -/
def upEdges (r : Nat) : List CtxOp → Nat
  | [] => 0
  | CtxOp.init :: t => (if r = 0 then 1 else 0) + upEdges (r + 1) t
  | CtxOp.free :: t => upEdges (r - 1) t

/-- Number of 1-to-0 refcount transitions performed by the operation
sequence when started at refcount r. -/
def downEdges (r : Nat) : List CtxOp → Nat
  | [] => 0
  | CtxOp.init :: t => downEdges (r + 1) t
  | CtxOp.free :: t => (if r = 1 then 1 else 0) + downEdges (r - 1) t

/-- An operation sequence is valid from refcount r when no free occurs at
refcount zero (every free releases a context that was initialized). -/
def validOps (r : Nat) : List CtxOp → Bool
  | [] => true
  | CtxOp.init :: t => validOps (r + 1) t
  | CtxOp.free :: t => decide (0 < r) && validOps (r - 1) t

/-- The per-block oracle the mode loops call: the net effect of one
esp_aes_crypt_ecb call on a context whose key for the given mode is
recorded (install the recorded key schedule, transform one 16-byte
block).  The hardware schedule and key expansion are external to the
repository, so the oracle is an abstract parameter of each mode. -/
def EcbOracle : Type := Int → List Nat → List Nat

/-- Decrypt-side loop of esp_aes_crypt_cbc: per 16-byte block, save the
ciphertext block as temp, ECB-decrypt it into the output block, XOR the
output block with the IV (with the unsigned char cast), then set
IV := temp and advance by 16 bytes.  Returns (output bytes, final IV,
trace of ecb calls). -/
def esp_aes_crypt_cbc_decLoop (ecb : EcbOracle) (length : Nat) (iv : List Nat)
    (input : List Nat) : List Nat × List Nat × List (Int × List Nat) :=
  if _h : length = 0 then ([], iv, [])
  else
    let temp := input.take 16
    let decOut := ecb AES_DECRYPT (input.take 16)
    let outBlock := List.zipWith (fun a b => uchar (Nat.xor a b)) decOut iv
    let rest := esp_aes_crypt_cbc_decLoop ecb (length - 16) temp (input.drop 16)
    (outBlock ++ rest.1, rest.2.1, (AES_DECRYPT, input.take 16) :: rest.2.2)
termination_by length
decreasing_by omega

/-- Encrypt-side loop of esp_aes_crypt_cbc: per 16-byte block, XOR the
plaintext block with the IV (with the unsigned char cast), ECB-encrypt
the result into the output block, set IV := output block and advance by
16 bytes.  Returns (output bytes, final IV, trace of ecb calls). -/
def esp_aes_crypt_cbc_encLoop (ecb : EcbOracle) (length : Nat) (iv : List Nat)
    (input : List Nat) : List Nat × List Nat × List (Int × List Nat) :=
  if _h : length = 0 then ([], iv, [])
  else
    let xored := List.zipWith (fun a b => uchar (Nat.xor a b)) (input.take 16) iv
    let outBlock := ecb AES_ENCRYPT xored
    let rest := esp_aes_crypt_cbc_encLoop ecb (length - 16) outBlock (input.drop 16)
    (outBlock ++ rest.1, rest.2.1, (AES_ENCRYPT, xored) :: rest.2.2)
termination_by length
decreasing_by omega

/-- esp_aes_crypt_cbc: rejects a length that is not a multiple of 16
with ERR_AES_INVALID_INPUT_LENGTH before touching anything, otherwise
runs the decrypt or encrypt block loop.  Returns (return code, final
IV, output bytes, trace of ecb calls). -/
def esp_aes_crypt_cbc (ecb : EcbOracle) (mode : Int) (length : Nat) (iv : List Nat)
    (input : List Nat) : Int × List Nat × List Nat × List (Int × List Nat) :=
  if length % 16 ≠ 0 then
    (ERR_AES_INVALID_INPUT_LENGTH, iv, [], [])
  else if mode = AES_DECRYPT then
    let r := esp_aes_crypt_cbc_decLoop ecb length iv input
    (0, r.2.1, r.1, r.2.2)
  else
    let r := esp_aes_crypt_cbc_encLoop ecb length iv input
    (0, r.2.1, r.1, r.2.2)

/-- Loop of esp_aes_crypt_cfb128, one step per input byte.  At offset 0
the IV buffer is replaced by its ECB encryption (the keystream).
Decrypt: c := input byte; output byte := c XOR iv[n]; iv[n] := c.
Encrypt: iv[n] := output byte := iv[n] XOR input byte.  The offset
advances by (n + 1) AND 0x0F.  Returns (final offset, final IV,
output bytes). -/
def esp_aes_crypt_cfb128_loop (ecb : EcbOracle) (mode : Int) (n : Nat) (iv : List Nat) :
    List Nat → Nat × List Nat × List Nat
  | [] => (n, iv, [])
  | x :: rest =>
    let iv1 := if n = 0 then ecb AES_ENCRYPT iv else iv
    if mode = AES_DECRYPT then
      let o := uchar (Nat.xor x (iv1.getD n 0))
      let iv2 := iv1.set n (uchar x)
      let r := esp_aes_crypt_cfb128_loop ecb mode ((n + 1) &&& 15) iv2 rest
      (r.1, r.2.1, o :: r.2.2)
    else
      let o := uchar (Nat.xor (iv1.getD n 0) x)
      let iv2 := iv1.set n o
      let r := esp_aes_crypt_cfb128_loop ecb mode ((n + 1) &&& 15) iv2 rest
      (r.1, r.2.1, o :: r.2.2)

/-- esp_aes_crypt_cfb128: runs the byte loop from the caller-supplied
offset and writes the final offset back.  The input list stands for the
length-byte input buffer.  Returns (return code, final offset, final
IV, output bytes). -/
def esp_aes_crypt_cfb128 (ecb : EcbOracle) (mode : Int) (iv_off : Nat) (iv : List Nat)
    (input : List Nat) : Int × Nat × List Nat × List Nat :=
  let r := esp_aes_crypt_cfb128_loop ecb mode iv_off iv input
  (0, r.1, r.2.1, r.2.2)

/-- Loop of esp_aes_crypt_cfb8, one step per input byte.  ov holds the
old IV; the IV is ECB-encrypted in place to form the keystream; the
output byte is keystream[0] XOR input byte; the byte appended to the
shift register (ov[16]) is the input byte on decrypt and the output
byte on encrypt, i.e. the ciphertext byte in both directions; the new
IV is ov shifted left by one byte.  Returns (final IV, output bytes). -/
def esp_aes_crypt_cfb8_loop (ecb : EcbOracle) (mode : Int) (iv : List Nat) :
    List Nat → List Nat × List Nat
  | [] => (iv, [])
  | x :: rest =>
    let ks := ecb AES_ENCRYPT iv
    let c := uchar (Nat.xor (ks.getD 0 0) x)
    let fb := if mode = AES_DECRYPT then uchar x else c
    let iv2 := (iv ++ [fb]).drop 1
    let r := esp_aes_crypt_cfb8_loop ecb mode iv2 rest
    (r.1, c :: r.2)

/-- esp_aes_crypt_cfb8: runs the byte loop over the input buffer.
Returns (return code, final IV, output bytes). -/
def esp_aes_crypt_cfb8 (ecb : EcbOracle) (mode : Int) (iv : List Nat)
    (input : List Nat) : Int × List Nat × List Nat :=
  let r := esp_aes_crypt_cfb8_loop ecb mode iv input
  (0, r.1, r.2)

/-- The counter increment loop of esp_aes_crypt_ctr: the loop walks
i = 16 down to 1, incrementing nonce_counter[i - 1] as an unsigned char
and stopping at the first byte that does not wrap to 0.  On the byte
list in buffer order this means: the LAST byte is incremented first,
and an element is incremented exactly when every byte after it wrapped
to 0 (the base case carries in to start the increment at the last
byte).  Returns (incremented bytes, whether the increment is still
propagating past the front). -/
def incNonceBytes : List Nat → List Nat × Bool
  | [] => ([], true)
  | b :: rest =>
    let r := incNonceBytes rest
    if r.2 then
      let b2 := uchar (b + 1)
      (b2 :: r.1, decide (b2 = 0))
    else
      (b :: r.1, false)

/-- The 128-bit big-endian counter increment of esp_aes_crypt_ctr on the
16-byte nonce_counter buffer. -/
def ctr_increment (nc : List Nat) : List Nat :=
  (incNonceBytes nc).1

/-- Big-endian value of a byte list. -/
def fromBE : List Nat → Nat
  | [] => 0
  | b :: rest => b * 256 ^ rest.length + fromBE rest
/-- Loop of esp_aes_crypt_ctr, one step per input byte.  At offset 0 the
stream block is set to the ECB encryption of nonce_counter and the
counter is incremented big-endian.  Each output byte is the input byte
XOR stream_block[n]; the offset advances by (n + 1) AND 0x0F.  Returns
(final offset, final nonce_counter, final stream_block, output
bytes). -/
def esp_aes_crypt_ctr_loop (ecb : EcbOracle) (n : Nat) (nc sb : List Nat) :
    List Nat → Nat × List Nat × List Nat × List Nat
  | [] => (n, nc, sb, [])
  | x :: rest =>
    let sb1 := if n = 0 then ecb AES_ENCRYPT nc else sb
    let nc1 := if n = 0 then ctr_increment nc else nc
    let o := uchar (Nat.xor x (sb1.getD n 0))
    let r := esp_aes_crypt_ctr_loop ecb ((n + 1) &&& 15) nc1 sb1 rest
    (r.1, r.2.1, r.2.2.1, o :: r.2.2.2)

/-- esp_aes_crypt_ctr: runs the byte loop from the caller-supplied
offset, counter and stream block, and writes the final offset back.
Returns (return code, final offset, final nonce_counter, final
stream_block, output bytes). -/
def esp_aes_crypt_ctr (ecb : EcbOracle) (nc_off : Nat) (nonce_counter stream_block : List Nat)
    (input : List Nat) : Int × Nat × List Nat × List Nat × List Nat :=
  let r := esp_aes_crypt_ctr_loop ecb nc_off nonce_counter stream_block input
  (0, r.1, r.2.1, r.2.2.1, r.2.2.2)

/-- C9: the single-block encrypt and decrypt entry points compute the
identical function: both invoke the hardware transform ets_aes_crypt
with no direction argument, so the output depends only on the engine
state (the installed transform), not on the context or the entry point
chosen. -/
theorem C9_encrypt_eq_decrypt (ets : List Nat → List Nat) (ctx1 ctx2 : AES_CTX)
    (input : List Nat) :
    esp_aes_encrypt ets ctx1 input = esp_aes_decrypt ets ctx2 input := rfl

/-- C10: freeing a NULL context is a complete no-op: esp_aes_free none
returns immediately, zeroizes nothing, leaves the engine refcount and
enabled flag unchanged, and emits no enable or disable call. -/
theorem C10_free_null_noop (s : EngineState) :
    esp_aes_free none s = (none, s, []) := rfl

/-- C7: esp_aes_crypt_cbc with a length that is not a multiple of 16
returns the distinct error ERR_AES_INVALID_INPUT_LENGTH, leaves the IV
unchanged, writes no output bytes, and performs no ecb (engine) call;
the error code is distinct from success and from the key length
error. -/
theorem C7_cbc_invalid_length (ecb : EcbOracle) (mode : Int) (length : Nat)
    (iv input : List Nat) (h : length % 16 ≠ 0) :
    esp_aes_crypt_cbc ecb mode length iv input =
      (ERR_AES_INVALID_INPUT_LENGTH, iv, [], []) ∧
    ERR_AES_INVALID_INPUT_LENGTH ≠ 0 ∧
    ERR_AES_INVALID_INPUT_LENGTH ≠ ERR_AES_INVALID_KEY_LENGTH := by
  refine ⟨?_, by decide, by decide⟩
  simp [esp_aes_crypt_cbc, h]

/-- Closed witness for C7 at length 5. -/
theorem C7_witness :
    esp_aes_crypt_cbc (fun _ b => b) AES_ENCRYPT 5 [9] [1, 2, 3, 4, 5] =
      (ERR_AES_INVALID_INPUT_LENGTH, [9], [], []) ∧ (5 : Nat) % 16 ≠ 0 :=
  ⟨(C7_cbc_invalid_length (fun _ b => b) AES_ENCRYPT 5 [9] [1, 2, 3, 4, 5]
      (by decide)).1, by decide⟩

/-- C2: evaluation of the code at the failing input.  On a freshly
initialized context whose keys were never set, esp_aes_crypt_ecb
returns 0 (success) and outputs the hardware transform of the input
instead of failing: esp_aes_process_enable passes the zero keybits of
the empty record to esp_aes_setkey_enc, which rejects them, but its
return code is discarded and the block transform runs anyway.  No
KeyNotSet error code exists anywhere in the code. -/
theorem C2_unset_key_ecb_succeeds (ets : List Nat → List Nat) (input : List Nat) :
    (esp_aes_crypt_ecb ets AES_ENCRYPT ctxZero input).1 = 0 ∧
    (esp_aes_crypt_ecb ets AES_ENCRYPT ctxZero input).2.2.1 = ets input ∧
    (esp_aes_crypt_ecb ets AES_ENCRYPT ctxZero input).2.2.2 = [HwEvent.crypt input] := by
  refine ⟨rfl, rfl, rfl⟩

/-- C1 counterexample: on a fresh context, setKey(enc, 128, sixteen 1
bytes) followed by setKey(enc, 256, thirty-two 2 bytes) leaves the
recorded bits at 128 and the recorded bytes at the first key, because
the second call sees the keyflag already set and only programs the
engine directly; the claim that the last call wins for the context
record is false. -/
theorem C1_counterexample :
    (esp_aes_setkey_enc (esp_aes_setkey_enc ctxZero (List.replicate 16 1) 128).2.1
        (List.replicate 32 2) 256).2.1.enc.keybits = 128 ∧
    (128 : Nat) ≠ 256 ∧
    (esp_aes_setkey_enc (esp_aes_setkey_enc ctxZero (List.replicate 16 1) 128).2.1
        (List.replicate 32 2) 256).2.1.enc.key =
      List.replicate 16 1 ++ List.replicate 16 0 := by
  refine ⟨by decide, by decide, by decide⟩

/-- C1 (amended): setKey with valid bits records bytes and bits into the
key record of that direction only on the first call (keyflag clear),
zero-padding the 32-byte buffer, and marks it present; once the flag is
set, a further setKey leaves the record unchanged and instead programs
the key directly onto the engine.  The first call wins for recorded
content. -/
theorem C1_first_call_wins (ctx : AES_CTX) (key : List Nat) (keybits : Nat)
    (hv : keybits = 128 ∨ keybits = 192 ∨ keybits = 256) :
    (ctx.enc.keyflag = false →
      (esp_aes_setkey_enc ctx key keybits).2.1.enc =
        ⟨true, keybits, key.take (keybits / 8) ++ List.replicate (32 - keybits / 8) 0⟩ ∧
      (esp_aes_setkey_enc ctx key keybits).2.2 = []) ∧
    (ctx.enc.keyflag = true →
      (esp_aes_setkey_enc ctx key keybits).2.1 = ctx ∧
      (esp_aes_setkey_enc ctx key keybits).2.2 = [HwEvent.setkeyEnc key keybits]) ∧
    (ctx.dec.keyflag = false →
      (esp_aes_setkey_dec ctx key keybits).2.1.dec =
        ⟨true, keybits, key.take (keybits / 8) ++ List.replicate (32 - keybits / 8) 0⟩ ∧
      (esp_aes_setkey_dec ctx key keybits).2.2 = []) ∧
    (ctx.dec.keyflag = true →
      (esp_aes_setkey_dec ctx key keybits).2.1 = ctx ∧
      (esp_aes_setkey_dec ctx key keybits).2.2 = [HwEvent.setkeyDec key keybits]) := by
  refine ⟨?_, ?_, ?_, ?_⟩ <;> intro hf <;>
    constructor <;> simp [esp_aes_setkey_enc, esp_aes_setkey_dec, hv, hf]

/-- Closed witness for C1 at a fresh context with a 128-bit key. -/
theorem C1_witness :
    (esp_aes_setkey_enc ctxZero (List.replicate 16 1) 128).2.1.enc =
      ⟨true, 128, List.replicate 16 1 ++ List.replicate 16 0⟩ := by
  have h := C1_first_call_wins ctxZero (List.replicate 16 1) 128 (by decide)
  simpa using (h.1 rfl).1

/-- C3 counterexample: two inits from the idle state perform a single
0→1 refcount transition but two enable calls, because esp_aes_init
calls ets_aes_enable unconditionally on every init; the claim that
enable is invoked exactly once per 0→1 transition is false. -/
theorem C3_counterexample :
    upEdges 0 [CtxOp.init, CtxOp.init] = 1 ∧
    (runOps ⟨0, false⟩ [CtxOp.init, CtxOp.init]).2.count EngineEvent.enable = 2 := by
  refine ⟨by decide, by decide⟩

/-- Helper for C3: over any valid lifecycle suffix started at refcount r
with the enabled flag matching r > 0, the run emits one disable per
1→0 transition, one enable per init, and re-establishes the
enabled-iff-held invariant. -/
theorem runOps_lifecycle_invariant (l : List CtxOp) : ∀ (r : Nat) (e : Bool),
    validOps r l = true → (e = true ↔ 0 < r) →
    (runOps ⟨r, e⟩ l).2.count EngineEvent.disable = downEdges r l ∧
    (runOps ⟨r, e⟩ l).2.count EngineEvent.enable = l.count CtxOp.init ∧
    ((runOps ⟨r, e⟩ l).1.enabled = true ↔ 0 < (runOps ⟨r, e⟩ l).1.refcount) := by
  induction l with
  | nil =>
    intro r e hv he
    simpa [runOps, downEdges] using he
  | cons op t ih =>
    intro r e hv he
    cases op with
    | init =>
      have hv2 : validOps (r + 1) t = true := by simpa [validOps] using hv
      have h := ih (r + 1) true hv2 (by simp)
      simp only [runOps, stepOp, esp_aes_init] at *
      refine ⟨?_, ?_, h.2.2⟩
      · simpa [downEdges, List.count_cons] using h.1
      · simpa [List.count_cons] using h.2.1
    | free =>
      have hv1 : 0 < r := by
        have := hv
        simp [validOps, Bool.and_eq_true] at this
        exact this.1
      have hv2 : validOps (r - 1) t = true := by
        have := hv
        simp [validOps, Bool.and_eq_true] at this
        exact this.2
      by_cases hr : r = 1
      · subst hr
        have h := ih 0 false hv2 (by simp)
        simp only [runOps, stepOp, esp_aes_free] at *
        refine ⟨?_, ?_, ?_⟩
        · have h1 := h.1
          simp [downEdges, List.count_cons]
          omega
        · simpa [List.count_cons] using h.2.1
        · simpa using h.2.2
      · have hr2 : ¬(r - 1 = 0) := by omega
        have he2 : e = true := he.mpr hv1
        have h := ih (r - 1) e (by simpa using hv2) (by simp [he2]; omega)
        simp only [runOps, stepOp, esp_aes_free, hr2, if_false] at *
        refine ⟨?_, ?_, h.2.2⟩
        · have hds : downEdges r (CtxOp.free :: t) = downEdges (r - 1) t := by
            simp [downEdges, hr]
          rw [hds]
          simpa [List.count_cons] using h.1
        · simpa [List.count_cons] using h.2.1

/-- C3 (amended): for every valid sequence of context init and free
operations from the idle state, the disable primitive is invoked
exactly once per refcount 1→0 transition, the enable primitive is
invoked once per init call (so a second init while a first context is
live does perform an additional, idempotent enable call), and after the
sequence the engine-enabled state equals refcount > 0. -/
theorem C3_lifecycle_edges (ops : List CtxOp) (hv : validOps 0 ops = true) :
    (runOps ⟨0, false⟩ ops).2.count EngineEvent.disable = downEdges 0 ops ∧
    (runOps ⟨0, false⟩ ops).2.count EngineEvent.enable = ops.count CtxOp.init ∧
    ((runOps ⟨0, false⟩ ops).1.enabled = true ↔ 0 < (runOps ⟨0, false⟩ ops).1.refcount) :=
  runOps_lifecycle_invariant ops 0 false hv (by simp)

/-- Closed witness for C3 at the sequence init, init, free, free. -/
theorem C3_witness :
    (runOps ⟨0, false⟩ [CtxOp.init, CtxOp.init, CtxOp.free, CtxOp.free]).2.count
        EngineEvent.disable =
      downEdges 0 [CtxOp.init, CtxOp.init, CtxOp.free, CtxOp.free] ∧
    (runOps ⟨0, false⟩ [CtxOp.init, CtxOp.init, CtxOp.free, CtxOp.free]).2.count
        EngineEvent.enable =
      [CtxOp.init, CtxOp.init, CtxOp.free, CtxOp.free].count CtxOp.init ∧
    ((runOps ⟨0, false⟩ [CtxOp.init, CtxOp.init, CtxOp.free, CtxOp.free]).1.enabled = true ↔
      0 < (runOps ⟨0, false⟩ [CtxOp.init, CtxOp.init, CtxOp.free, CtxOp.free]).1.refcount) :=
  C3_lifecycle_edges [CtxOp.init, CtxOp.init, CtxOp.free, CtxOp.free] (by decide)

/-- The unsigned char cast always yields a byte. -/
theorem uchar_lt (x : Nat) : uchar x < 256 :=
  Nat.mod_lt x (by norm_num)

/-- The unsigned char cast is the identity on bytes. -/
theorem uchar_eq_of_lt {x : Nat} (h : x < 256) : uchar x = x :=
  Nat.mod_eq_of_lt h

/-- XOR of two bytes is a byte. -/
theorem xor_lt_256 {a b : Nat} (ha : a < 256) (hb : b < 256) : Nat.xor a b < 256 := by
  have h256 : (256 : Nat) = 2 ^ 8 := by norm_num
  rw [h256] at *
  exact Nat.bitwise_lt ha hb

/-- XOR with the same byte twice restores a byte, through the casts. -/
theorem uchar_xor_cancel {a x : Nat} (ha : a < 256) (hx : x < 256) :
    uchar (Nat.xor (uchar (Nat.xor x a)) a) = x := by
  rw [uchar_eq_of_lt (xor_lt_256 hx ha)]
  have h2 : Nat.xor (Nat.xor x a) a = x := by
    show x ^^^ a ^^^ a = x
    rw [Nat.xor_assoc, Nat.xor_self, Nat.xor_zero]
  rw [h2, uchar_eq_of_lt hx]

/-- getD with default 0 on a list of bytes yields a byte. -/
theorem getD_lt_256 : ∀ (l : List Nat) (n : Nat), (∀ x ∈ l, x < 256) → l.getD n 0 < 256
  | [], n, _ => by simp [List.getD]
  | b :: t, 0, h => by simpa using h b (by simp)
  | b :: t, n + 1, h => by
    simpa using getD_lt_256 t n (fun x hx => h x (by simp [hx]))

/-- Fusing two zipWith passes that share the right operand list. -/
theorem zipWith_zipWith_right (f g : Nat → Nat → Nat) :
    ∀ (a b : List Nat),
      List.zipWith f (List.zipWith g a b) b = List.zipWith (fun x y => f (g x y) y) a b := by
  intro a
  induction a with
  | nil => intro b; simp
  | cons x xs ih => intro b; cases b <;> simp [ih]

/-- XOR-ing a byte list with the same list twice restores it, through the
casts. -/
theorem zipWith_uchar_xor_cancel :
    ∀ (a b : List Nat), a.length = b.length → (∀ x ∈ a, x < 256) → (∀ x ∈ b, x < 256) →
      List.zipWith (fun x y => uchar (Nat.xor x y))
        (List.zipWith (fun x y => uchar (Nat.xor x y)) a b) b = a := by
  intro a
  induction a with
  | nil => intro b _ _ _; simp
  | cons x xs ih =>
    intro b hlen ha hb
    cases b with
    | nil => simp at hlen
    | cons y ys =>
      have hx : x < 256 := ha x (by simp)
      have hy : y < 256 := hb y (by simp)
      simp only [List.zipWith_cons_cons]
      rw [uchar_xor_cancel hy hx]
      rw [ih ys (by simpa using hlen) (fun z hz => ha z (by simp [hz]))
        (fun z hz => hb z (by simp [hz]))]

/-- The bitmask AND 0x0F is reduction mod 16. -/
theorem land15_eq_mod (m : Nat) : m &&& 15 = m % 16 := by
  have h := Nat.and_pow_two_sub_one_eq_mod m 4
  norm_num at h
  exact h

/-- Bytes of an XOR-and-cast zipWith are bytes. -/
theorem zipWith_uchar_lt : ∀ (a b : List Nat) (x : Nat),
    x ∈ List.zipWith (fun u v => uchar (Nat.xor u v)) a b → x < 256
  | [], _, x, h => by simp at h
  | _ :: _, [], x, h => by simp at h
  | u :: us, v :: vs, x, h => by
    simp only [List.zipWith_cons_cons, List.mem_cons] at h
    rcases h with h | h
    · subst h; exact uchar_lt _
    · exact zipWith_uchar_lt us vs x h

set_option maxHeartbeats 2000000 in
/-- Unfolding of the CBC encrypt loop at length zero. -/
theorem cbc_encLoop_zero (ecb : EcbOracle) (iv input : List Nat) :
    esp_aes_crypt_cbc_encLoop ecb 0 iv input = ([], iv, []) := by
  rw [esp_aes_crypt_cbc_encLoop.eq_def]
  simp

set_option maxHeartbeats 2000000 in
/-- Unfolding of the CBC encrypt loop at a nonzero length. -/
theorem cbc_encLoop_step (ecb : EcbOracle) (length : Nat) (h : length ≠ 0)
    (iv input : List Nat) :
    esp_aes_crypt_cbc_encLoop ecb length iv input =
      ((ecb AES_ENCRYPT (List.zipWith (fun a b => uchar (Nat.xor a b)) (input.take 16) iv)) ++
        (esp_aes_crypt_cbc_encLoop ecb (length - 16)
          (ecb AES_ENCRYPT (List.zipWith (fun a b => uchar (Nat.xor a b)) (input.take 16) iv))
          (input.drop 16)).1,
       (esp_aes_crypt_cbc_encLoop ecb (length - 16)
          (ecb AES_ENCRYPT (List.zipWith (fun a b => uchar (Nat.xor a b)) (input.take 16) iv))
          (input.drop 16)).2.1,
       (AES_ENCRYPT, List.zipWith (fun a b => uchar (Nat.xor a b)) (input.take 16) iv) ::
        (esp_aes_crypt_cbc_encLoop ecb (length - 16)
          (ecb AES_ENCRYPT (List.zipWith (fun a b => uchar (Nat.xor a b)) (input.take 16) iv))
          (input.drop 16)).2.2) := by
  rw [esp_aes_crypt_cbc_encLoop.eq_def]
  simp [h]

set_option maxHeartbeats 2000000 in
/-- Unfolding of the CBC decrypt loop at length zero. -/
theorem cbc_decLoop_zero (ecb : EcbOracle) (iv input : List Nat) :
    esp_aes_crypt_cbc_decLoop ecb 0 iv input = ([], iv, []) := by
  rw [esp_aes_crypt_cbc_decLoop.eq_def]
  simp

set_option maxHeartbeats 2000000 in
/-- Unfolding of the CBC decrypt loop at a nonzero length. -/
theorem cbc_decLoop_step (ecb : EcbOracle) (length : Nat) (h : length ≠ 0)
    (iv input : List Nat) :
    esp_aes_crypt_cbc_decLoop ecb length iv input =
      ((List.zipWith (fun a b => uchar (Nat.xor a b)) (ecb AES_DECRYPT (input.take 16)) iv) ++
        (esp_aes_crypt_cbc_decLoop ecb (length - 16) (input.take 16) (input.drop 16)).1,
       (esp_aes_crypt_cbc_decLoop ecb (length - 16) (input.take 16) (input.drop 16)).2.1,
       (AES_DECRYPT, input.take 16) ::
        (esp_aes_crypt_cbc_decLoop ecb (length - 16) (input.take 16) (input.drop 16)).2.2) := by
  rw [esp_aes_crypt_cbc_decLoop.eq_def]
  simp [h]

/-- Output of the CBC encrypt loop on one more block: ciphertext block
followed by the loop on the remaining bytes with IV := ciphertext
block. -/
theorem cbc_encLoop_out (ecb : EcbOracle) (m : Nat) (iv input : List Nat) :
    (esp_aes_crypt_cbc_encLoop ecb (16 * (m + 1)) iv input).1 =
      ecb AES_ENCRYPT (List.zipWith (fun a b => uchar (Nat.xor a b)) (input.take 16) iv) ++
      (esp_aes_crypt_cbc_encLoop ecb (16 * m)
        (ecb AES_ENCRYPT (List.zipWith (fun a b => uchar (Nat.xor a b)) (input.take 16) iv))
        (input.drop 16)).1 := by
  rw [cbc_encLoop_step ecb _ (by omega), show 16 * (m + 1) - 16 = 16 * m by omega]

/-- Output of the CBC decrypt loop on a ciphertext starting with a full
16-byte block: decrypted and IV-XORed block followed by the loop on the
rest with IV := that ciphertext block. -/
theorem cbc_decLoop_cons_block (ecb : EcbOracle) (m : Nat) (iv c1 rest : List Nat)
    (hc1 : c1.length = 16) :
    (esp_aes_crypt_cbc_decLoop ecb (16 * (m + 1)) iv (c1 ++ rest)).1 =
      List.zipWith (fun a b => uchar (Nat.xor a b)) (ecb AES_DECRYPT c1) iv ++
      (esp_aes_crypt_cbc_decLoop ecb (16 * m) c1 rest).1 := by
  rw [cbc_decLoop_step ecb _ (by omega)]
  rw [List.take_append_of_le_length (by omega), List.take_of_length_le (by omega),
    List.drop_append_of_le_length (by omega), List.drop_eq_nil_of_le (by omega),
    List.nil_append, show 16 * (m + 1) - 16 = 16 * m by omega]

/-- CBC roundtrip at the loop level: decrypting the encrypt-loop output
with a fresh copy of the same IV restores the plaintext, for any number
of 16-byte blocks, provided the block primitive preserves block length
and byte range and decryption inverts encryption. -/
theorem cbc_loop_roundtrip (ecb : EcbOracle)
    (hElen : ∀ b, b.length = 16 → (ecb AES_ENCRYPT b).length = 16)
    (hErng : ∀ b, b.length = 16 → (∀ x ∈ b, x < 256) → ∀ x ∈ ecb AES_ENCRYPT b, x < 256)
    (hinv : ∀ b, ecb AES_DECRYPT (ecb AES_ENCRYPT b) = b) :
    ∀ (n : Nat) (iv input : List Nat), input.length = 16 * n → iv.length = 16 →
      (∀ x ∈ input, x < 256) → (∀ x ∈ iv, x < 256) →
      (esp_aes_crypt_cbc_decLoop ecb (16 * n) iv
        (esp_aes_crypt_cbc_encLoop ecb (16 * n) iv input).1).1 = input := by
  intro n
  induction n with
  | zero =>
    intro iv input hlen hiv hin hivb
    have hinput : input = [] := List.eq_nil_of_length_eq_zero (by omega)
    subst hinput
    rw [cbc_encLoop_zero, cbc_decLoop_zero]
  | succ m ih =>
    intro iv input hlen hiv hin hivb
    have htake : (input.take 16).length = 16 := by
      rw [List.length_take]; omega
    have htrng : ∀ x ∈ input.take 16, x < 256 := fun x hx => hin x (List.mem_of_mem_take hx)
    have hdlen : (input.drop 16).length = 16 * m := by
      rw [List.length_drop]; omega
    have hdrng : ∀ x ∈ input.drop 16, x < 256 := fun x hx => hin x (List.mem_of_mem_drop hx)
    have hxlen : (List.zipWith (fun a b => uchar (Nat.xor a b)) (input.take 16) iv).length
        = 16 := by
      rw [List.length_zipWith, htake, hiv]; simp
    have hxrng : ∀ x ∈ List.zipWith (fun a b => uchar (Nat.xor a b)) (input.take 16) iv,
        x < 256 := fun x hx => zipWith_uchar_lt _ _ x hx
    have hclen : (ecb AES_ENCRYPT
        (List.zipWith (fun a b => uchar (Nat.xor a b)) (input.take 16) iv)).length = 16 :=
      hElen _ hxlen
    have hcrng : ∀ x ∈ ecb AES_ENCRYPT
        (List.zipWith (fun a b => uchar (Nat.xor a b)) (input.take 16) iv), x < 256 :=
      hErng _ hxlen hxrng
    rw [cbc_encLoop_out, cbc_decLoop_cons_block ecb m iv _ _ hclen, hinv,
      zipWith_uchar_xor_cancel (input.take 16) iv (by omega) htrng hivb,
      ih _ (input.drop 16) hdlen hclen hdrng hcrng, List.take_append_drop]

/-- C4: for every plaintext whose length is a multiple of 16 and every
16-byte IV, CBC-decrypting the output of CBC-encrypt, each call given
its own fresh copy of the same IV, returns exactly the original
plaintext, assuming the external block primitive satisfies
decrypt(encrypt(b)) = b and preserves block length and byte range; both
calls return 0. -/
theorem C4_cbc_roundtrip (ecb : EcbOracle) (iv input : List Nat)
    (hlen : input.length % 16 = 0) (hiv : iv.length = 16)
    (hin : ∀ x ∈ input, x < 256) (hivb : ∀ x ∈ iv, x < 256)
    (hElen : ∀ b, b.length = 16 → (ecb AES_ENCRYPT b).length = 16)
    (hErng : ∀ b, b.length = 16 → (∀ x ∈ b, x < 256) → ∀ x ∈ ecb AES_ENCRYPT b, x < 256)
    (hinv : ∀ b, ecb AES_DECRYPT (ecb AES_ENCRYPT b) = b) :
    (esp_aes_crypt_cbc ecb AES_ENCRYPT input.length iv input).1 = 0 ∧
    (esp_aes_crypt_cbc ecb AES_DECRYPT input.length iv
      (esp_aes_crypt_cbc ecb AES_ENCRYPT input.length iv input).2.2.1).1 = 0 ∧
    (esp_aes_crypt_cbc ecb AES_DECRYPT input.length iv
      (esp_aes_crypt_cbc ecb AES_ENCRYPT input.length iv input).2.2.1).2.2.1 = input := by
  obtain ⟨n, hn⟩ : ∃ n, input.length = 16 * n := ⟨input.length / 16, by omega⟩
  have hencEq : esp_aes_crypt_cbc ecb AES_ENCRYPT input.length iv input =
      (0, (esp_aes_crypt_cbc_encLoop ecb input.length iv input).2.1,
        (esp_aes_crypt_cbc_encLoop ecb input.length iv input).1,
        (esp_aes_crypt_cbc_encLoop ecb input.length iv input).2.2) := by
    simp [esp_aes_crypt_cbc, hlen, AES_ENCRYPT, AES_DECRYPT]
  have hdecEq : ∀ ct, esp_aes_crypt_cbc ecb AES_DECRYPT input.length iv ct =
      (0, (esp_aes_crypt_cbc_decLoop ecb input.length iv ct).2.1,
        (esp_aes_crypt_cbc_decLoop ecb input.length iv ct).1,
        (esp_aes_crypt_cbc_decLoop ecb input.length iv ct).2.2) := by
    intro ct
    simp [esp_aes_crypt_cbc, hlen]
  refine ⟨?_, ?_, ?_⟩
  · rw [hencEq]
  · rw [hencEq, hdecEq]
  · rw [hencEq, hdecEq]
    show (esp_aes_crypt_cbc_decLoop ecb input.length iv
      (esp_aes_crypt_cbc_encLoop ecb input.length iv input).1).1 = input
    rw [hn]
    exact cbc_loop_roundtrip ecb hElen hErng hinv n iv input hn hiv hin hivb

/-- Closed witness for C4: identity block primitive, zero IV, 32 bytes
of plaintext. -/
theorem C4_witness :
    (esp_aes_crypt_cbc (fun _ b => b) AES_DECRYPT (List.replicate 32 7).length
        (List.replicate 16 0)
        (esp_aes_crypt_cbc (fun _ b => b) AES_ENCRYPT (List.replicate 32 7).length
          (List.replicate 16 0) (List.replicate 32 7)).2.2.1).2.2.1 = List.replicate 32 7 :=
  (C4_cbc_roundtrip (fun _ b => b) (List.replicate 16 0) (List.replicate 32 7)
    (by decide) (by decide) (by decide) (by decide)
    (fun b hb => hb) (fun b _ hb => hb) (fun b => rfl)).2.2

/-- Left-operand variant of the XOR cancellation through casts. -/
theorem uchar_xor_cancel_left {a x : Nat} (ha : a < 256) (hx : x < 256) :
    uchar (Nat.xor a (uchar (Nat.xor a x))) = x := by
  have h1 : Nat.xor a x = Nat.xor x a := Nat.xor_comm a x
  rw [h1]
  have h2 : Nat.xor a (uchar (Nat.xor x a)) = Nat.xor (uchar (Nat.xor x a)) a :=
    Nat.xor_comm a (uchar (Nat.xor x a))
  rw [h2]
  exact uchar_xor_cancel ha hx

/-- One CFB-8 encrypt step: output byte is keystream[0] XOR input byte
and that ciphertext byte is shifted into the register. -/
theorem cfb8_enc_step (ecb : EcbOracle) (iv : List Nat) (x : Nat) (rest : List Nat) :
    esp_aes_crypt_cfb8_loop ecb AES_ENCRYPT iv (x :: rest) =
      ((esp_aes_crypt_cfb8_loop ecb AES_ENCRYPT
          ((iv ++ [uchar (Nat.xor ((ecb AES_ENCRYPT iv).getD 0 0) x)]).drop 1) rest).1,
       uchar (Nat.xor ((ecb AES_ENCRYPT iv).getD 0 0) x) ::
        (esp_aes_crypt_cfb8_loop ecb AES_ENCRYPT
          ((iv ++ [uchar (Nat.xor ((ecb AES_ENCRYPT iv).getD 0 0) x)]).drop 1) rest).2) := by
  simp [esp_aes_crypt_cfb8_loop, AES_ENCRYPT, AES_DECRYPT]

/-- One CFB-8 decrypt step: output byte is keystream[0] XOR ciphertext
byte and the ciphertext byte itself is shifted into the register. -/
theorem cfb8_dec_step (ecb : EcbOracle) (iv : List Nat) (x : Nat) (rest : List Nat) :
    esp_aes_crypt_cfb8_loop ecb AES_DECRYPT iv (x :: rest) =
      ((esp_aes_crypt_cfb8_loop ecb AES_DECRYPT ((iv ++ [uchar x]).drop 1) rest).1,
       uchar (Nat.xor ((ecb AES_ENCRYPT iv).getD 0 0) x) ::
        (esp_aes_crypt_cfb8_loop ecb AES_DECRYPT ((iv ++ [uchar x]).drop 1) rest).2) := by
  simp [esp_aes_crypt_cfb8_loop]

/-- CFB-8 roundtrip at the loop level: both directions evolve the shift
register with the same ciphertext feedback byte, so decrypting the
encrypted stream with the same starting register restores the
plaintext, for inputs of arbitrary length. -/
theorem cfb8_loop_roundtrip (ecb : EcbOracle)
    (hErng : ∀ b, b.length = 16 → (∀ x ∈ b, x < 256) → ∀ x ∈ ecb AES_ENCRYPT b, x < 256) :
    ∀ (input iv : List Nat), iv.length = 16 → (∀ x ∈ iv, x < 256) →
      (∀ x ∈ input, x < 256) →
      (esp_aes_crypt_cfb8_loop ecb AES_DECRYPT iv
        (esp_aes_crypt_cfb8_loop ecb AES_ENCRYPT iv input).2).2 = input := by
  intro input
  induction input with
  | nil =>
    intro iv _ _ _
    simp [esp_aes_crypt_cfb8_loop]
  | cons x rest ih =>
    intro iv hiv hivb hin
    have hx : x < 256 := hin x (by simp)
    have hks : (ecb AES_ENCRYPT iv).getD 0 0 < 256 := getD_lt_256 _ _ (hErng iv hiv hivb)
    rw [cfb8_enc_step, cfb8_dec_step,
      uchar_eq_of_lt (uchar_lt (Nat.xor ((ecb AES_ENCRYPT iv).getD 0 0) x))]
    have hiv2len :
        ((iv ++ [uchar (Nat.xor ((ecb AES_ENCRYPT iv).getD 0 0) x)]).drop 1).length = 16 := by
      simp [hiv]
    have hiv2b :
        ∀ y ∈ (iv ++ [uchar (Nat.xor ((ecb AES_ENCRYPT iv).getD 0 0) x)]).drop 1,
          y < 256 := by
      intro y hy
      rcases List.mem_append.mp (List.mem_of_mem_drop hy) with h | h
      · exact hivb y h
      · simp at h
        subst h
        exact uchar_lt _
    exact List.cons_eq_cons.mpr ⟨uchar_xor_cancel_left hks hx,
      ih _ hiv2len hiv2b (fun z hz => hin z (by simp [hz]))⟩

/-- C5: for every 16-byte starting IV and every plaintext of arbitrary
length (not necessarily 16-aligned), CFB-8 decryption of the CFB-8
encryption, each call given its own fresh copy of the same IV, returns
exactly the original plaintext; both calls return 0. -/
theorem C5_cfb8_roundtrip (ecb : EcbOracle) (iv input : List Nat)
    (hiv : iv.length = 16) (hivb : ∀ x ∈ iv, x < 256) (hin : ∀ x ∈ input, x < 256)
    (hErng : ∀ b, b.length = 16 → (∀ x ∈ b, x < 256) → ∀ x ∈ ecb AES_ENCRYPT b, x < 256) :
    (esp_aes_crypt_cfb8 ecb AES_ENCRYPT iv input).1 = 0 ∧
    (esp_aes_crypt_cfb8 ecb AES_DECRYPT iv
      (esp_aes_crypt_cfb8 ecb AES_ENCRYPT iv input).2.2).1 = 0 ∧
    (esp_aes_crypt_cfb8 ecb AES_DECRYPT iv
      (esp_aes_crypt_cfb8 ecb AES_ENCRYPT iv input).2.2).2.2 = input := by
  refine ⟨rfl, rfl, ?_⟩
  show (esp_aes_crypt_cfb8_loop ecb AES_DECRYPT iv
    (esp_aes_crypt_cfb8_loop ecb AES_ENCRYPT iv input).2).2 = input
  exact cfb8_loop_roundtrip ecb hErng input iv hiv hivb hin

/-- Closed witness for C5: identity block primitive, zero IV, three
plaintext bytes (length not aligned to 16). -/
theorem C5_witness :
    (esp_aes_crypt_cfb8 (fun _ b => b) AES_DECRYPT (List.replicate 16 0)
      (esp_aes_crypt_cfb8 (fun _ b => b) AES_ENCRYPT (List.replicate 16 0)
        [1, 2, 3]).2.2).2.2 = [1, 2, 3] :=
  (C5_cfb8_roundtrip (fun _ b => b) (List.replicate 16 0) [1, 2, 3]
    (by decide) (by decide) (by decide) (fun b _ hb => hb)).2.2

/-- Value bound of a big-endian byte list. -/
theorem fromBE_lt : ∀ (l : List Nat), (∀ x ∈ l, x < 256) → fromBE l < 256 ^ l.length
  | [], _ => by simp [fromBE]
  | b :: rest, h => by
    have hb : b < 256 := h b (by simp)
    have hr : fromBE rest < 256 ^ rest.length :=
      fromBE_lt rest (fun x hx => h x (by simp [hx]))
    simp only [fromBE, List.length_cons]
    calc b * 256 ^ rest.length + fromBE rest
        < b * 256 ^ rest.length + 256 ^ rest.length := by omega
      _ = (b + 1) * 256 ^ rest.length := by ring
      _ ≤ 256 * 256 ^ rest.length := Nat.mul_le_mul_right _ (by omega)
      _ = 256 ^ (rest.length + 1) := by rw [pow_succ]; ring

/-- The counter increment preserves the buffer length. -/
theorem incNonceBytes_length : ∀ l : List Nat, (incNonceBytes l).1.length = l.length
  | [] => rfl
  | b :: rest => by
    simp only [incNonceBytes]
    split
    · simp [incNonceBytes_length rest]
    · simp [incNonceBytes_length rest]

/-- The counter increment keeps every byte in range. -/
theorem incNonceBytes_bytes_lt : ∀ l : List Nat, (∀ x ∈ l, x < 256) →
    ∀ x ∈ (incNonceBytes l).1, x < 256
  | [], _, x, hx => by simp [incNonceBytes] at hx
  | b :: rest, h, x, hx => by
    have hr := incNonceBytes_bytes_lt rest (fun y hy => h y (by simp [hy]))
    by_cases hc : (incNonceBytes rest).2 = true
    · simp only [incNonceBytes, hc, if_true, List.mem_cons] at hx
      rcases hx with rfl | hx
      · exact uchar_lt _
      · exact hr x hx
    · simp only [Bool.not_eq_true] at hc
      simp only [incNonceBytes, hc, Bool.false_eq_true, if_false, List.mem_cons] at hx
      rcases hx with rfl | hx
      · exact h _ (by simp)
      · exact hr x hx

/-- Numeric characterization of the counter increment loop: on a byte
list it computes value + 1 modulo 256 to the length, with the returned
flag signalling wraparound of the whole buffer. -/
theorem incNonceBytes_spec : ∀ l : List Nat, (∀ x ∈ l, x < 256) →
    fromBE (incNonceBytes l).1 = (fromBE l + 1) % 256 ^ l.length ∧
    ((incNonceBytes l).2 = true ↔ fromBE l + 1 = 256 ^ l.length) := by
  intro l
  induction l with
  | nil =>
    intro _
    refine ⟨by simp [incNonceBytes, fromBE], by simp [incNonceBytes, fromBE]⟩
  | cons b rest ih =>
    intro h
    have hb : b < 256 := h b (by simp)
    have hrest := ih (fun y hy => h y (by simp [hy]))
    have hlt : fromBE rest < 256 ^ rest.length :=
      fromBE_lt rest (fun y hy => h y (by simp [hy]))
    have hlen : ((incNonceBytes rest).1).length = rest.length := incNonceBytes_length rest
    have hpow : (256 : Nat) ^ (rest.length + 1) = 256 * 256 ^ rest.length := by
      rw [pow_succ]; ring
    have hPpos : 0 < (256 : Nat) ^ rest.length := pow_pos (by norm_num) _
    by_cases hc : (incNonceBytes rest).2 = true
    · have hcar : fromBE rest + 1 = 256 ^ rest.length := hrest.2.mp hc
      have hr1 : fromBE (incNonceBytes rest).1 = 0 := by
        rw [hrest.1, hcar, Nat.mod_self]
      have hval : b * 256 ^ rest.length + fromBE rest + 1 = (b + 1) * 256 ^ rest.length := by
        rw [show (b + 1) * 256 ^ rest.length
          = b * 256 ^ rest.length + 256 ^ rest.length from by ring]
        omega
      constructor
      · simp only [incNonceBytes, hc, if_true]
        simp only [fromBE, hlen, hr1, Nat.add_zero, List.length_cons]
        rw [show b * 256 ^ rest.length + fromBE rest + 1
          = (b + 1) * 256 ^ rest.length from hval]
        rw [hpow, Nat.mul_mod_mul_right]
        simp [uchar]
      · simp only [incNonceBytes, hc, if_true, decide_eq_true_eq]
        simp only [fromBE, List.length_cons]
        constructor
        · intro h0
          have hb1 : b + 1 = 256 := by
            simp only [uchar] at h0
            omega
          rw [show b * 256 ^ rest.length + fromBE rest + 1
            = (b + 1) * 256 ^ rest.length from hval, hb1, hpow]
        · intro hv
          have hmul : (b + 1) * 256 ^ rest.length = 256 * 256 ^ rest.length := by
            rw [← hval, ← hpow]
            omega
          have hb1 : b + 1 = 256 := Nat.eq_of_mul_eq_mul_right hPpos hmul
          simp [uchar]
          omega
    · have hncar : fromBE rest + 1 ≠ 256 ^ rest.length := fun hh => hc (hrest.2.mpr hh)
      have hc2 : (incNonceBytes rest).2 = false := by simpa using hc
      have hlt2 : fromBE rest + 1 < 256 ^ rest.length := by omega
      have hr1 : fromBE (incNonceBytes rest).1 = fromBE rest + 1 := by
        rw [hrest.1, Nat.mod_eq_of_lt hlt2]
      have hbP : b * 256 ^ rest.length ≤ 255 * 256 ^ rest.length :=
        Nat.mul_le_mul_right _ (by omega)
      have h255 : 255 * 256 ^ rest.length + 256 ^ rest.length = 256 * 256 ^ rest.length := by
        ring
      constructor
      · simp only [incNonceBytes, hc2, Bool.false_eq_true, if_false]
        simp only [fromBE, hlen, hr1, List.length_cons]
        rw [Nat.mod_eq_of_lt (by rw [hpow]; omega)]
        omega
      · simp only [incNonceBytes, hc2, Bool.false_eq_true, if_false]
        simp only [fromBE, List.length_cons]
        refine iff_of_false (by simp) ?_
        rw [hpow]
        omega

/-- The big-endian counter increment of esp_aes_crypt_ctr computes
value + 1 modulo 2 to the 128 on the 16-byte buffer. -/
theorem ctr_increment_spec (nc : List Nat) (h : ∀ x ∈ nc, x < 256) :
    fromBE (ctr_increment nc) = (fromBE nc + 1) % 256 ^ nc.length :=
  (incNonceBytes_spec nc h).1

/-- The counter increment preserves buffer length. -/
theorem ctr_increment_length (nc : List Nat) : (ctr_increment nc).length = nc.length :=
  incNonceBytes_length nc

/-- The counter increment keeps bytes in range. -/
theorem ctr_increment_bytes_lt (nc : List Nat) (h : ∀ x ∈ nc, x < 256) :
    ∀ x ∈ ctr_increment nc, x < 256 :=
  incNonceBytes_bytes_lt nc h

/-- One CTR step at offset 0: the stream block is refreshed to the ECB
encryption of the counter, the counter is incremented, and the output
byte is the input byte XOR stream block byte 0. -/
theorem ctr_step_zero (ecb : EcbOracle) (nc sb : List Nat) (x : Nat) (rest : List Nat) :
    esp_aes_crypt_ctr_loop ecb 0 nc sb (x :: rest) =
      ((esp_aes_crypt_ctr_loop ecb 1 (ctr_increment nc) (ecb AES_ENCRYPT nc) rest).1,
       (esp_aes_crypt_ctr_loop ecb 1 (ctr_increment nc) (ecb AES_ENCRYPT nc) rest).2.1,
       (esp_aes_crypt_ctr_loop ecb 1 (ctr_increment nc) (ecb AES_ENCRYPT nc) rest).2.2.1,
       uchar (Nat.xor x ((ecb AES_ENCRYPT nc).getD 0 0)) ::
        (esp_aes_crypt_ctr_loop ecb 1 (ctr_increment nc) (ecb AES_ENCRYPT nc) rest).2.2.2) := by
  simp [esp_aes_crypt_ctr_loop]

/-- One CTR step at a nonzero offset: counter and stream block are kept
and the output byte is the input byte XOR stream block byte n. -/
theorem ctr_step_pos (ecb : EcbOracle) (n : Nat) (hn : n ≠ 0) (nc sb : List Nat)
    (x : Nat) (rest : List Nat) :
    esp_aes_crypt_ctr_loop ecb n nc sb (x :: rest) =
      ((esp_aes_crypt_ctr_loop ecb ((n + 1) &&& 15) nc sb rest).1,
       (esp_aes_crypt_ctr_loop ecb ((n + 1) &&& 15) nc sb rest).2.1,
       (esp_aes_crypt_ctr_loop ecb ((n + 1) &&& 15) nc sb rest).2.2.1,
       uchar (Nat.xor x (sb.getD n 0)) ::
        (esp_aes_crypt_ctr_loop ecb ((n + 1) &&& 15) nc sb rest).2.2.2) := by
  simp [esp_aes_crypt_ctr_loop, hn]

/-- CTR roundtrip at the loop level: the keystream state evolution does
not depend on the data bytes, so running the loop twice from the same
offset, counter and stream block state restores the input. -/
theorem ctr_loop_roundtrip (ecb : EcbOracle)
    (hErng : ∀ b, b.length = 16 → (∀ x ∈ b, x < 256) → ∀ x ∈ ecb AES_ENCRYPT b, x < 256) :
    ∀ (input : List Nat) (n : Nat) (nc sb : List Nat),
      nc.length = 16 → (∀ x ∈ nc, x < 256) → (∀ x ∈ sb, x < 256) →
      (∀ x ∈ input, x < 256) →
      (esp_aes_crypt_ctr_loop ecb n nc sb
        (esp_aes_crypt_ctr_loop ecb n nc sb input).2.2.2).2.2.2 = input := by
  intro input
  induction input with
  | nil =>
    intro n nc sb _ _ _ _
    simp [esp_aes_crypt_ctr_loop]
  | cons x rest ih =>
    intro n nc sb hnc hncb hsbb hin
    have hx : x < 256 := hin x (by simp)
    have hrest : ∀ z ∈ rest, z < 256 := fun z hz => hin z (by simp [hz])
    by_cases hn : n = 0
    · subst hn
      have hks : (ecb AES_ENCRYPT nc).getD 0 0 < 256 :=
        getD_lt_256 _ _ (hErng nc hnc hncb)
      rw [ctr_step_zero, ctr_step_zero]
      exact List.cons_eq_cons.mpr ⟨uchar_xor_cancel hks hx,
        ih 1 (ctr_increment nc) (ecb AES_ENCRYPT nc)
          (by rw [ctr_increment_length, hnc]) (ctr_increment_bytes_lt nc hncb)
          (hErng nc hnc hncb) hrest⟩
    · have hks : sb.getD n 0 < 256 := getD_lt_256 _ _ hsbb
      rw [ctr_step_pos ecb n hn, ctr_step_pos ecb n hn]
      exact List.cons_eq_cons.mpr ⟨uchar_xor_cancel hks hx,
        ih ((n + 1) &&& 15) nc sb hnc hncb hsbb hrest⟩

/-- C6: the CTR mode of esp_aes_crypt_ctr.  At offset 0 the stream block
becomes the ECB encryption of the current nonce counter, the counter is
incremented as a 128-bit big-endian integer (byte 15 first, carry
propagating exactly while bytes wrap to 0), and the output byte is the
input byte XOR the stream block byte at the offset; running the same
call again from the same starting state restores the input, so
decryption is the same operation as encryption. -/
theorem C6_ctr (ecb : EcbOracle) (n y : Nat) (nc sb input : List Nat)
    (hnc : nc.length = 16) (hncb : ∀ x ∈ nc, x < 256) (hsbb : ∀ x ∈ sb, x < 256)
    (hin : ∀ x ∈ input, x < 256)
    (hErng : ∀ b, b.length = 16 → (∀ x ∈ b, x < 256) → ∀ x ∈ ecb AES_ENCRYPT b, x < 256) :
    fromBE (ctr_increment nc) = (fromBE nc + 1) % 256 ^ 16 ∧
    (esp_aes_crypt_ctr ecb 0 nc sb [y]).2.2.2.1 = ecb AES_ENCRYPT nc ∧
    (esp_aes_crypt_ctr ecb 0 nc sb [y]).2.2.1 = ctr_increment nc ∧
    (esp_aes_crypt_ctr ecb 0 nc sb [y]).2.2.2.2 =
      [uchar (Nat.xor y ((ecb AES_ENCRYPT nc).getD 0 0))] ∧
    (esp_aes_crypt_ctr ecb n nc sb
      (esp_aes_crypt_ctr ecb n nc sb input).2.2.2.2).2.2.2.2 = input := by
  refine ⟨?_, ?_, ?_, ?_, ?_⟩
  · rw [← hnc]
    exact ctr_increment_spec nc hncb
  · show (esp_aes_crypt_ctr_loop ecb 0 nc sb [y]).2.2.1 = ecb AES_ENCRYPT nc
    rw [ctr_step_zero]
    simp [esp_aes_crypt_ctr_loop]
  · show (esp_aes_crypt_ctr_loop ecb 0 nc sb [y]).2.1 = ctr_increment nc
    rw [ctr_step_zero]
    simp [esp_aes_crypt_ctr_loop]
  · show (esp_aes_crypt_ctr_loop ecb 0 nc sb [y]).2.2.2 =
      [uchar (Nat.xor y ((ecb AES_ENCRYPT nc).getD 0 0))]
    rw [ctr_step_zero]
    simp [esp_aes_crypt_ctr_loop]
  · show (esp_aes_crypt_ctr_loop ecb n nc sb
      (esp_aes_crypt_ctr_loop ecb n nc sb input).2.2.2).2.2.2 = input
    exact ctr_loop_roundtrip ecb hErng input n nc sb hnc hncb hsbb hin

/-- Closed witness for C6: identity block primitive, counter fifteen 0
bytes then 255, arbitrary stream block, three plaintext bytes. -/
theorem C6_witness :
    fromBE (ctr_increment (List.replicate 15 0 ++ [255])) =
      (fromBE (List.replicate 15 0 ++ [255]) + 1) % 256 ^ 16 ∧
    (esp_aes_crypt_ctr (fun _ b => b) 0 (List.replicate 15 0 ++ [255]) (List.replicate 16 9)
      [5]).2.2.2.1 = (fun _ b => b) AES_ENCRYPT (List.replicate 15 0 ++ [255]) ∧
    (esp_aes_crypt_ctr (fun _ b => b) 0 (List.replicate 15 0 ++ [255]) (List.replicate 16 9)
      [5]).2.2.1 = ctr_increment (List.replicate 15 0 ++ [255]) ∧
    (esp_aes_crypt_ctr (fun _ b => b) 0 (List.replicate 15 0 ++ [255]) (List.replicate 16 9)
      [5]).2.2.2.2 =
      [uchar (Nat.xor 5 (((fun _ b => b) AES_ENCRYPT
        (List.replicate 15 0 ++ [255])).getD 0 0))] ∧
    (esp_aes_crypt_ctr (fun _ b => b) 0 (List.replicate 15 0 ++ [255]) (List.replicate 16 9)
      (esp_aes_crypt_ctr (fun _ b => b) 0 (List.replicate 15 0 ++ [255]) (List.replicate 16 9)
        [5, 6, 7]).2.2.2.2).2.2.2.2 = [5, 6, 7] :=
  C6_ctr (fun _ b => b) 0 5 (List.replicate 15 0 ++ [255]) (List.replicate 16 9) [5, 6, 7]
    (by decide) (by decide) (by decide) (by decide) (fun b _ hb => hb)

/-- Final offset of the CFB-128 loop: each processed byte advances the
offset to (offset + 1) AND 0x0F, so the loop ends at
(start + length) mod 16. -/
theorem cfb128_loop_offset (ecb : EcbOracle) (mode : Int) :
    ∀ (input : List Nat) (n : Nat) (iv : List Nat), n < 16 →
      (esp_aes_crypt_cfb128_loop ecb mode n iv input).1 = (n + input.length) % 16 := by
  intro input
  induction input with
  | nil =>
    intro n iv hn
    simp [esp_aes_crypt_cfb128_loop, Nat.mod_eq_of_lt hn]
  | cons x rest ih =>
    intro n iv hn
    have hland : (n + 1) &&& 15 = (n + 1) % 16 := land15_eq_mod (n + 1)
    have hlt : (n + 1) &&& 15 < 16 := by
      rw [hland]
      exact Nat.mod_lt _ (by norm_num)
    by_cases hm : mode = AES_DECRYPT
    · subst hm
      simp only [esp_aes_crypt_cfb128_loop, if_true, List.length_cons]
      rw [ih _ _ hlt, hland]
      omega
    · simp only [esp_aes_crypt_cfb128_loop, if_neg hm, List.length_cons]
      rw [ih _ _ hlt, hland]
      omega

/-- Final offset of the CTR loop: each processed byte advances the
offset to (offset + 1) AND 0x0F, so the loop ends at
(start + length) mod 16. -/
theorem ctr_loop_offset (ecb : EcbOracle) :
    ∀ (input : List Nat) (n : Nat) (nc sb : List Nat), n < 16 →
      (esp_aes_crypt_ctr_loop ecb n nc sb input).1 = (n + input.length) % 16 := by
  intro input
  induction input with
  | nil =>
    intro n nc sb hn
    simp [esp_aes_crypt_ctr_loop, Nat.mod_eq_of_lt hn]
  | cons x rest ih =>
    intro n nc sb hn
    have hland : (n + 1) &&& 15 = (n + 1) % 16 := land15_eq_mod (n + 1)
    have hlt : (n + 1) &&& 15 < 16 := by
      rw [hland]
      exact Nat.mod_lt _ (by norm_num)
    by_cases h0 : n = 0
    · subst h0
      rw [ctr_step_zero]
      show (esp_aes_crypt_ctr_loop ecb 1 (ctr_increment nc) (ecb AES_ENCRYPT nc) rest).1 = _
      rw [ih _ _ _ (by norm_num)]
      simp [List.length_cons]
      omega
    · rw [ctr_step_pos ecb n h0]
      show (esp_aes_crypt_ctr_loop ecb ((n + 1) &&& 15) nc sb rest).1 = _
      rw [ih _ _ _ hlt, hland]
      simp [List.length_cons]
      omega

/-- C8: for every CFB-128 or CTR call whose starting offset lies in
[0,16), both directions included, the offset written back equals
(start + length) mod 16 (each processed byte advances the offset by
(offset + 1) mod 16) and in particular lies in [0,16) again. -/
theorem C8_offset_invariant (ecb : EcbOracle) (n : Nat) (iv nc sb input : List Nat)
    (hn : n < 16) :
    (esp_aes_crypt_cfb128 ecb AES_ENCRYPT n iv input).2.1 = (n + input.length) % 16 ∧
    (esp_aes_crypt_cfb128 ecb AES_DECRYPT n iv input).2.1 = (n + input.length) % 16 ∧
    (esp_aes_crypt_ctr ecb n nc sb input).2.1 = (n + input.length) % 16 ∧
    (esp_aes_crypt_cfb128 ecb AES_ENCRYPT n iv input).2.1 < 16 ∧
    (esp_aes_crypt_cfb128 ecb AES_DECRYPT n iv input).2.1 < 16 ∧
    (esp_aes_crypt_ctr ecb n nc sb input).2.1 < 16 := by
  have h1 := cfb128_loop_offset ecb AES_ENCRYPT input n iv hn
  have h2 := cfb128_loop_offset ecb AES_DECRYPT input n iv hn
  have h3 := ctr_loop_offset ecb input n nc sb hn
  have hm : (n + input.length) % 16 < 16 := Nat.mod_lt _ (by norm_num)
  exact ⟨h1, h2, h3, lt_of_eq_of_lt h1 hm, lt_of_eq_of_lt h2 hm, lt_of_eq_of_lt h3 hm⟩

/-- Closed witness for C8 at offset 3 with a 2-byte input. -/
theorem C8_witness :
    (esp_aes_crypt_cfb128 (fun _ b => b) AES_ENCRYPT 3 (List.replicate 16 0)
      [1, 2]).2.1 = (3 + [1, 2].length) % 16 ∧
    (esp_aes_crypt_cfb128 (fun _ b => b) AES_DECRYPT 3 (List.replicate 16 0)
      [1, 2]).2.1 = (3 + [1, 2].length) % 16 ∧
    (esp_aes_crypt_ctr (fun _ b => b) 3 (List.replicate 16 0) (List.replicate 16 9)
      [1, 2]).2.1 = (3 + [1, 2].length) % 16 ∧
    (esp_aes_crypt_cfb128 (fun _ b => b) AES_ENCRYPT 3 (List.replicate 16 0)
      [1, 2]).2.1 < 16 ∧
    (esp_aes_crypt_cfb128 (fun _ b => b) AES_DECRYPT 3 (List.replicate 16 0)
      [1, 2]).2.1 < 16 ∧
    (esp_aes_crypt_ctr (fun _ b => b) 3 (List.replicate 16 0) (List.replicate 16 9)
      [1, 2]).2.1 < 16 :=
  C8_offset_invariant (fun _ b => b) 3 (List.replicate 16 0) (List.replicate 16 0)
    (List.replicate 16 9) [1, 2] (by decide)
